import Mathlib

/-!
Verification development for the commissioning register-packing layer.

The Python source (src/device_startup/functions.py) is embedded shallowly:
Python unbounded integers become Int, Python lists become List, raised
exceptions become the error side of Except.  The two telemetry packers
(IwcConfiguration, TscConfiguration) are modelled instruction by
instruction, with list subscripts bounds-checked exactly as Python
subscripting is.
-/

namespace Commissioning

attribute [local semireducible] Rat.mul Rat.add Rat.sub Rat.inv

/-- Errors raised by the packing layer.  tooManyPackages carries the length
reported by the constructor check, tooManyRegisters carries the running
register total at the moment the budget check fires, indexError models a
Python IndexError from list subscripting. -/
inductive PackError where
  | tooManyPackages (n : Nat)
  | tooManyRegisters (amount : Int)
  | indexError
deriving DecidableEq

/-- Boolean error test on Except, mirroring whether the Python call raised. -/
def isErr : Except ε α → Bool
  | .error _ => true
  | .ok _ => false

instance instDecEqExcept [DecidableEq ε] [DecidableEq α] : DecidableEq (Except ε α)
  | .error a, .error b =>
    if h : a = b then .isTrue (by rw [h]) else .isFalse (by intro hc; cases hc; exact h rfl)
  | .error _, .ok _ => .isFalse (by intro hc; cases hc)
  | .ok _, .error _ => .isFalse (by intro hc; cases hc)
  | .ok a, .ok b =>
    if h : a = b then .isTrue (by rw [h]) else .isFalse (by intro hc; cases hc; exact h rfl)

/-- Python statement regs[i] += v (read-modify-write on one list cell),
assuming the index is in bounds. -/
def addIdx (l : List Int) (i : Nat) (v : Int) : List Int :=
  l.set i (l.getD i 0 + v)

/-- Python statement regs[i] += v with the bounds check Python performs:
an out-of-range subscript raises IndexError. -/
def addIdxE (l : List Int) (i : Nat) (v : Int) : Except PackError (List Int) :=
  if i < l.length then .ok (addIdx l i v) else .error .indexError

/-- Python statement regs[i] = v with the bounds check Python performs. -/
def setIdxE (l : List Int) (i : Nat) (v : Int) : Except PackError (List Int) :=
  if i < l.length then .ok (l.set i v) else .error .indexError

/-- The loop body of IwcConfiguration.modbus_package (functions.py lines
38-43): for each package, bank A at position index accumulates the code,
bank B word trunc(index/4) + 10 accumulates register_count shifted by
16 ^ (index mod 4), and the running register total is checked against the
budget MAX_IWC_REGISTERS = 30 strictly after each addition. -/
def iwcLoop : List (Int × Int) → Nat → Int → List Int → Except PackError (List Int)
  | [], _, _, regs => .ok regs
  | e :: rest, index, amount, regs =>
    match addIdxE regs index e.1 with
    | .error err => .error err
    | .ok r1 =>
      match addIdxE r1 (index / 4 + 10) (e.2 * 16 ^ (index % 4)) with
      | .error err => .error err
      | .ok r2 =>
        if 30 < amount + e.2 then
          .error (.tooManyRegisters (amount + e.2))
        else
          iwcLoop rest (index + 1) (amount + e.2) r2

/-- The loop body of TscConfiguration.modbus_package (functions.py lines
57-65): bank A at position index is assigned the code, bank B word
index/2 + 24 accumulates register_count for even indices and
register_count * 256 for odd indices, and the running total is checked
against MAX_TSC_REGISTERS = 39 strictly after each addition.  Python
uses int(index/2) on the even branch and trunc(index/2) on the odd
branch; both equal Nat division for nonnegative index. -/
def tscLoop : List (Int × Int) → Nat → Int → List Int → Except PackError (List Int)
  | [], _, _, regs => .ok regs
  | e :: rest, index, amount, regs =>
    match setIdxE regs index e.1 with
    | .error err => .error err
    | .ok r1 =>
      match (if index % 2 = 0 then addIdxE r1 (index / 2 + 24) e.2
             else addIdxE r1 (index / 2 + 24) (e.2 * 256)) with
      | .error err => .error err
      | .ok r2 =>
        if 39 < amount + e.2 then
          .error (.tooManyRegisters (amount + e.2))
        else
          tscLoop rest (index + 1) (amount + e.2) r2

/-- IwcConfiguration.__init__ (lines 28-31): stores the configuration and
raises if strictly more than MAX_IWC_PACKAGES = 10 entries are given. -/
def IwcConfiguration.init (conf : List (Int × Int)) : Except PackError (List (Int × Int)) :=
  if 10 < conf.length then .error (.tooManyPackages conf.length) else .ok conf

/-- TscConfiguration.__init__ (lines 47-50): raises if strictly more than
MAX_TSC_PACKAGES = 24 entries are given. -/
def TscConfiguration.init (conf : List (Int × Int)) : Except PackError (List (Int × Int)) :=
  if 24 < conf.length then .error (.tooManyPackages conf.length) else .ok conf

/-- IwcConfiguration.modbus_package (lines 33-44): the output starts as
int(MAX_IWC_PACKAGES * 1.5) = 15 zero words and the loop fills it. -/
def IwcConfiguration.modbus_package (conf : List (Int × Int)) : Except PackError (List Int) :=
  iwcLoop conf 0 0 (List.replicate 15 0)

/-- TscConfiguration.modbus_package (lines 52-66): the output starts as
int(MAX_TSC_PACKAGES * 1.5) = 36 zero words and the loop fills it. -/
def TscConfiguration.modbus_package (conf : List (Int × Int)) : Except PackError (List Int) :=
  tscLoop conf 0 0 (List.replicate 36 0)

/-- End-to-end IWC packing: construct the configuration object, then derive
its register list; the first raised error wins, as in Python. -/
def iwcPack (conf : List (Int × Int)) : Except PackError (List Int) :=
  match IwcConfiguration.init conf with
  | .error e => .error e
  | .ok c => IwcConfiguration.modbus_package c

/-- End-to-end TSC packing. -/
def tscPack (conf : List (Int × Int)) : Except PackError (List Int) :=
  match TscConfiguration.init conf with
  | .error e => .error e
  | .ok c => TscConfiguration.modbus_package c

/-- Sum of the register_count fields over the first k entries. -/
def prefixSum (conf : List (Int × Int)) (k : Nat) : Int :=
  ((conf.take k).map (fun p => p.2)).sum

/-- Sum of the register_count fields over all entries. -/
def sumRc (conf : List (Int × Int)) : Int :=
  (conf.map (fun p => p.2)).sum

/-- The first running total that strictly exceeds the budget, scanning the
entries in order starting from the accumulated amount, if any. -/
def firstViolation (budget : Int) : Int → List (Int × Int) → Option Int
  | _, [] => none
  | amount, e :: rest =>
    if budget < amount + e.2 then some (amount + e.2)
    else firstViolation budget (amount + e.2) rest

/-- Pure fill function for the IWC loop, with the error cases stripped:
the value the register list takes when no check fires. -/
def iwcFill : List (Int × Int) → Nat → List Int → List Int
  | [], _, regs => regs
  | e :: rest, index, regs =>
    iwcFill rest (index + 1)
      (addIdx (addIdx regs index e.1) (index / 4 + 10) (e.2 * 16 ^ (index % 4)))

/-- Pure fill function for the TSC loop. -/
def tscFill : List (Int × Int) → Nat → List Int → List Int
  | [], _, regs => regs
  | e :: rest, index, regs =>
    tscFill rest (index + 1)
      (if index % 2 = 0 then addIdx (regs.set index e.1) (index / 2 + 24) e.2
       else addIdx (regs.set index e.1) (index / 2 + 24) (e.2 * 256))

/-- Per-index contribution of the entries to IWC bank A: entry number n
adds its code at position n. -/
def contribA : List (Int × Int) → Nat → Nat → Int
  | [], _, _ => 0
  | e :: rest, n, j => (if n = j then e.1 else 0) + contribA rest (n + 1) j

/-- Per-index contribution of the entries to IWC bank B: entry number n
adds register_count times 16 ^ (n mod 4) at position n / 4 + 10. -/
def contribB : List (Int × Int) → Nat → Nat → Int
  | [], _, _ => 0
  | e :: rest, n, j =>
    (if n / 4 + 10 = j then e.2 * 16 ^ (n % 4) else 0) + contribB rest (n + 1) j

/-- Per-index contribution of the entries to TSC bank B: entry number n
adds register_count times 256 ^ (n mod 2) at position n / 2 + 24. -/
def contribBT : List (Int × Int) → Nat → Nat → Int
  | [], _, _ => 0
  | e :: rest, n, j =>
    (if n / 2 + 24 = j then e.2 * 256 ^ (n % 2) else 0) + contribBT rest (n + 1) j

/-- The signed-to-unsigned 16-bit codec: struct.pack of format <h followed
by struct.unpack of format <H, as used by the scalar encoders (for example
IwcWindAlarmTime.modbus_package, lines 177-178).  struct.pack raises when
the value is outside the signed 16-bit range; otherwise the bit pattern is
reinterpreted as the unsigned word, that is, the value modulo 2 ^ 16. -/
def encode_i16_as_u16 (v : Int) : Except String Nat :=
  if v < -32768 ∨ 32767 < v then
    .error ("short format requires -32768 <= number <= 32767")
  else
    .ok (v % 65536).toNat

/-- IwcWindAlarmTime.modbus_package (lines 168-179): deactivation word then
activation word, each through the signed 16-bit codec. -/
def IwcWindAlarmTime.modbus_package (deact act : Int) : Except String (List Nat) :=
  match encode_i16_as_u16 deact, encode_i16_as_u16 act with
  | .ok d, .ok a => .ok [d, a]
  | .error msg, _ => .error msg
  | _, .error msg => .error msg

/-- IwcAvgTime.modbus_package (lines 181-190): one signed 16-bit word. -/
def IwcAvgTime.modbus_package (average_time : Int) : Except String (List Nat) :=
  match encode_i16_as_u16 average_time with
  | .ok v => .ok [v]
  | .error msg => .error msg

/-- IwcRelaxTime.modbus_package (lines 192-201): one signed 16-bit word. -/
def IwcRelaxTime.modbus_package (relax_time : Int) : Except String (List Nat) :=
  match encode_i16_as_u16 relax_time with
  | .ok v => .ok [v]
  | .error msg => .error msg

/-- TscBacktracking.modbus_package (lines 143-152): two signed 16-bit
words. -/
def TscBacktracking.modbus_package (b1 b2 : Int) : Except String (List Nat) :=
  match encode_i16_as_u16 b1, encode_i16_as_u16 b2 with
  | .ok x, .ok y => .ok [x, y]
  | .error msg, _ => .error msg
  | _, .error msg => .error msg

/-- IwcSnowActivationTime.modbus_package (lines 214-221): a single unsigned
word, not a list, through the signed 16-bit codec. -/
def IwcSnowActivationTime.modbus_package (activation_time : Int) : Except String Nat :=
  encode_i16_as_u16 activation_time

/-- IwcSnowDeactivationTime.modbus_package (lines 223-230). -/
def IwcSnowDeactivationTime.modbus_package (deactivation_time : Int) : Except String Nat :=
  encode_i16_as_u16 deactivation_time

/-- IwcSnowSampleTime.modbus_package (lines 232-239). -/
def IwcSnowSampleTime.modbus_package (sample_period : Int) : Except String Nat :=
  encode_i16_as_u16 sample_period

/-- IwcSnowMaxVariation.modbus_package (lines 241-248). -/
def IwcSnowMaxVariation.modbus_package (max_variation : Int) : Except String Nat :=
  encode_i16_as_u16 max_variation

/-- Fuel-based floor of the base-2 logarithm on Nat; the fuel argument
makes the recursion structural so concrete values reduce in the kernel. -/
def log2fuel : Nat → Nat → Nat
  | 0, _ => 0
  | fuel + 1, n => if n < 2 then 0 else log2fuel fuel (n / 2) + 1

/-- Floor of the base-2 logarithm: nlog2 n is the largest e with
2 ^ e ≤ n, and 0 for n = 0. -/
def nlog2 (n : Nat) : Nat := log2fuel n n

/-- Two to an integer power, as a rational. -/
def pow2z : Int → Rat
  | .ofNat n => (2 : Rat) ^ n
  | .negSucc n => 1 / (2 : Rat) ^ (n + 1)

/-- The exponent e with 2 ^ e ≤ q < 2 ^ (e + 1), for positive q. -/
def ratLog2 (q : Rat) : Int :=
  let la : Int := nlog2 q.num.toNat
  let lb : Int := nlog2 q.den
  if pow2z (la - lb) ≤ q then la - lb else la - lb - 1

/-- Round a rational to the nearest integer, ties going to the even
integer: the rounding used by IEEE-754 arithmetic. -/
def roundHalfEven (q : Rat) : Int :=
  let n : Int := q.num.fdiv q.den
  let f : Rat := q - (n : Rat)
  if f < 1 / 2 then n
  else if 1 / 2 < f then n + 1
  else if n % 2 = 0 then n else n + 1

/-- The correctly rounded (round to nearest, ties to even) value of q at p
significant bits with unbounded exponent, as an exact rational.  For
p = 53 this is the value an IEEE-754 binary64 operation returns whenever
the result lies in the normal range, which covers every computation the
claims quantify over. -/
def fround (p : Nat) (q : Rat) : Rat :=
  if q = 0 then 0
  else
    let m : Rat := if q < 0 then -q else q
    let e : Int := ratLog2 m
    let s : Int := (p : Int) - 1 - e
    let n : Int := roundHalfEven (m * pow2z s)
    (if q < 0 then -(n : Rat) else (n : Rat)) * pow2z (-s)

/-- The IEEE-754 binary32 bit pattern of the rational q, the 32-bit value
struct.pack of format <f produces: sign bit, 8 exponent bits, 23 mantissa
bits, with gradual underflow below 2 ^ (-126) and overflow to the
infinity pattern. -/
def f32bits (q : Rat) : Nat :=
  if q = 0 then 0
  else
    let sign : Nat := if q < 0 then 1 else 0
    let m : Rat := if q < 0 then -q else q
    let k : Int := max (ratLog2 m) (-126)
    let n : Int := roundHalfEven (m * pow2z (23 - k))
    let n2 : Int := if n = 2 ^ 24 then 2 ^ 23 else n
    let k2 : Int := if n = 2 ^ 24 then k + 1 else k
    if 127 < k2 then sign * 2 ^ 31 + 255 * 2 ^ 23
    else if n2 < 2 ^ 23 then sign * 2 ^ 31 + n2.toNat
    else sign * 2 ^ 31 + (k2 + 127).toNat * 2 ^ 23 + (n2.toNat - 2 ^ 23)

/-- The two 16-bit register words struct.unpack of format <HH reads back
from a packed binary32: low half of the bit pattern first, then the high
half, each being two bytes of the pattern. -/
def f32words (q : Rat) : List Nat :=
  [f32bits q % 65536, f32bits q / 65536 % 65536]

/-- The binary64 value of the Python literal 34.70909090909091, the
degrees-to-pulses scale of TscSwMovementLimit (line 113). -/
def swConst : Rat := fround 53 (3470909090909091 / 100000000000000)

/-- The binary64 value of math.pi: 884279719003555 * 2 ^ (-48). -/
def pi64 : Rat := 7074237752028440 / 2251799813685248

/-- The binary64 value of the Python literal 3.6, the km/h to m/s divisor
of IwcWindSpeedThresholds (lines 163-164). -/
def c36 : Rat := fround 53 (18 / 5)

/-- Binary64 multiplication in the normal range: the exact product,
correctly rounded to 53 significant bits. -/
def fmul64 (a b : Rat) : Rat := fround 53 (a * b)

/-- Binary64 division in the normal range. -/
def fdiv64 (a b : Rat) : Rat := fround 53 (a / b)

/-- Python int() on a float value: truncation toward zero. -/
def truncQ (q : Rat) : Int := q.num.tdiv (q.den : Int)

/-- TscCoordinates.modbus_package (lines 68-79): longitude then latitude,
each as the two little-endian words of its binary32 pattern. -/
def TscCoordinates.modbus_package (longitude latitude : Rat) : List Nat :=
  f32words longitude ++ f32words latitude

/-- TscSunTracking.modbus_package (lines 81-92). -/
def TscSunTracking.modbus_package (pitch panel_width : Rat) : List Nat :=
  f32words pitch ++ f32words panel_width

/-- The degrees-to-radians conversion angle * math.pi / 180.0 performed in
binary64 (lines 126 and 139). -/
def degToRad64 (angle : Rat) : Rat := fdiv64 (fmul64 angle pi64) 180

/-- TscSmartLimits.modbus_package (lines 117-128): two words per angle, in
the iteration order of the mapping. -/
def TscSmartLimits.modbus_package (angles : List Rat) : List Nat :=
  angles.foldr (fun a acc => f32words (degToRad64 a) ++ acc) []

/-- TscSafePositions.modbus_package (lines 130-141), a duplicate of the
smart-limits encoder in the source. -/
def TscSafePositions.modbus_package (angles : List Rat) : List Nat :=
  angles.foldr (fun a acc => f32words (degToRad64 a) ++ acc) []

/-- IwcWindSpeedThresholds.modbus_package (lines 154-166): each threshold
divided by 3.6 in binary64, then encoded as a binary32 word pair. -/
def IwcWindSpeedThresholds.modbus_package (deact act : Rat) : List Nat :=
  f32words (fdiv64 deact c36) ++ f32words (fdiv64 act c36)

/-- IwcSnowThreshold.modbus_package (lines 203-212). -/
def IwcSnowThreshold.modbus_package (snow_threshold : Rat) : List Nat :=
  f32words snow_threshold

/-- TscSwMovementLimit.modbus_package (lines 105-115): each limit is
multiplied by 34.70909090909091 in binary64, truncated toward zero by
int(), then passed through the signed 16-bit codec; west first. -/
def TscSwMovementLimit.modbus_package (west_limit east_limit : Rat) :
    Except String (List Nat) :=
  match encode_i16_as_u16 (truncQ (fmul64 west_limit swConst)),
        encode_i16_as_u16 (truncQ (fmul64 east_limit swConst)) with
  | .ok w, .ok ea => .ok [w, ea]
  | .error msg, _ => .error msg
  | _, .error msg => .error msg

/-- Value of one hexadecimal digit, case-insensitive, as bytes.fromhex
accepts them; by character code, 48 to 57 are the decimal digits, 97 to
102 the lowercase and 65 to 70 the uppercase hex letters, whose values
are code minus 87 and code minus 55. -/
def hexVal (c : Char) : Option Nat :=
  if 48 ≤ c.toNat ∧ c.toNat ≤ 57 then some (c.toNat - 48)
  else if 97 ≤ c.toNat ∧ c.toNat ≤ 102 then some (c.toNat - 87)
  else if 65 ≤ c.toNat ∧ c.toNat ≤ 70 then some (c.toNat - 55)
  else none

/-- bytes.fromhex on a string of hexadecimal digits: consecutive digit
pairs become bytes; an odd length or a non-digit fails.  The whitespace
skipping fromhex also performs is not modelled, since every claim
quantifies over plain hex-digit strings only. -/
def parseHexPairs : List Char → Option (List Nat)
  | [] => some []
  | [_] => none
  | c1 :: c2 :: rest =>
    match hexVal c1, hexVal c2, parseHexPairs rest with
    | some hi, some lo, some bs => some ((16 * hi + lo) :: bs)
    | _, _, _ => none

/-- TscPanID.modbus_package (lines 94-103): bytes.fromhex, then
struct.unpack of format >4H, which demands exactly 8 bytes and reads four
big-endian 16-bit words; the words are emitted in reversed order. -/
def TscPanID.modbus_package (pan_id : List Char) : Except String (List Nat) :=
  match parseHexPairs pan_id with
  | none => .error ("non-hexadecimal number found in fromhex arg")
  | some bs =>
    if bs.length = 8 then
      .ok [bs.getD 6 0 * 256 + bs.getD 7 0, bs.getD 4 0 * 256 + bs.getD 5 0,
           bs.getD 2 0 * 256 + bs.getD 3 0, bs.getD 0 0 * 256 + bs.getD 1 0]
    else
      .error ("unpack requires a buffer of 8 bytes")

/-- IwcPanID.modbus_package (lines 250-259), a duplicate of the TSC PanID
encoder in the source. -/
def IwcPanID.modbus_package (pan_id : List Char) : Except String (List Nat) :=
  match parseHexPairs pan_id with
  | none => .error ("non-hexadecimal number found in fromhex arg")
  | some bs =>
    if bs.length = 8 then
      .ok [bs.getD 6 0 * 256 + bs.getD 7 0, bs.getD 4 0 * 256 + bs.getD 5 0,
           bs.getD 2 0 * 256 + bs.getD 3 0, bs.getD 0 0 * 256 + bs.getD 1 0]
    else
      .error ("unpack requires a buffer of 8 bytes")

theorem addIdx_length (l : List Int) (i : Nat) (v : Int) :
    (addIdx l i v).length = l.length := by
  simp [addIdx]

theorem addIdx_getD (l : List Int) (i : Nat) (v : Int) (j : Nat) (hi : i < l.length) :
    (addIdx l i v).getD j 0 = l.getD j 0 + (if i = j then v else 0) := by
  unfold addIdx
  rcases eq_or_ne i j with h | h
  · subst h
    simp [List.getD_eq_getElem?_getD, List.getElem?_set, hi]
  · simp [List.getD_eq_getElem?_getD, List.getElem?_set, h]

theorem set_getD (l : List Int) (i : Nat) (v : Int) (j : Nat) (hi : i < l.length) :
    (l.set i v).getD j 0 = if i = j then v else l.getD j 0 := by
  rcases eq_or_ne i j with h | h
  · subst h
    simp [List.getD_eq_getElem?_getD, List.getElem?_set, hi]
  · simp [List.getD_eq_getElem?_getD, List.getElem?_set, h]

theorem addIdxE_of_lt (l : List Int) (i : Nat) (v : Int) (h : i < l.length) :
    addIdxE l i v = .ok (addIdx l i v) := by
  simp [addIdxE, h]

theorem setIdxE_of_lt (l : List Int) (i : Nat) (v : Int) (h : i < l.length) :
    setIdxE l i v = .ok (l.set i v) := by
  simp [setIdxE, h]

theorem replicate_getD (n j : Nat) : (List.replicate n (0 : Int)).getD j 0 = 0 := by
  rw [List.getD_eq_getElem?_getD, List.getElem?_replicate]
  split <;> rfl

theorem prefixSum_zero (conf : List (Int × Int)) : prefixSum conf 0 = 0 := by
  simp [prefixSum]

theorem prefixSum_cons (e : Int × Int) (rest : List (Int × Int)) (k : Nat) :
    prefixSum (e :: rest) (k + 1) = e.2 + prefixSum rest k := by
  simp [prefixSum, List.take_succ_cons]

theorem prefixSum_one (e : Int × Int) (rest : List (Int × Int)) :
    prefixSum (e :: rest) 1 = e.2 := by
  have h : (1 : Nat) = 0 + 1 := rfl
  rw [h, prefixSum_cons, prefixSum_zero, add_zero]

theorem prefixSum_length (conf : List (Int × Int)) :
    prefixSum conf conf.length = sumRc conf := by
  simp [prefixSum, sumRc, List.take_length]

theorem iwcFill_length : ∀ (conf : List (Int × Int)) (n : Nat) (regs : List Int),
    (iwcFill conf n regs).length = regs.length
  | [], _, _ => rfl
  | e :: rest, n, regs => by
    rw [iwcFill, iwcFill_length rest]
    simp [addIdx]

theorem tscFill_length : ∀ (conf : List (Int × Int)) (n : Nat) (regs : List Int),
    (tscFill conf n regs).length = regs.length
  | [], _, _ => rfl
  | e :: rest, n, regs => by
    rw [tscFill, tscFill_length rest]
    split <;> simp [addIdx]

theorem iwcLoop_eq : ∀ (conf : List (Int × Int)) (n : Nat) (a : Int) (regs : List Int),
    regs.length = 15 → n + conf.length ≤ 10 →
    iwcLoop conf n a regs =
      match firstViolation 30 a conf with
      | some v => .error (.tooManyRegisters v)
      | none => .ok (iwcFill conf n regs)
  | [], n, a, regs, _, _ => by
    simp [iwcLoop, firstViolation, iwcFill]
  | e :: rest, n, a, regs, h15, hn => by
    have hn10 : n < 10 := by
      simp only [List.length_cons] at hn
      omega
    have h1 : n < regs.length := by omega
    have h2 : n / 4 + 10 < (addIdx regs n e.1).length := by
      rw [addIdx_length]
      omega
    rw [iwcLoop, addIdxE_of_lt _ _ _ h1]
    dsimp only
    rw [addIdxE_of_lt _ _ _ h2]
    dsimp only
    rw [firstViolation]
    by_cases hb : 30 < a + e.2
    · simp [hb]
    · have hrec := iwcLoop_eq rest (n + 1) (a + e.2)
        (addIdx (addIdx regs n e.1) (n / 4 + 10) (e.2 * 16 ^ (n % 4)))
        (by rw [addIdx_length, addIdx_length]; exact h15)
        (by simp only [List.length_cons] at hn; omega)
      simp [hb, hrec, iwcFill]

theorem tscLoop_eq : ∀ (conf : List (Int × Int)) (n : Nat) (a : Int) (regs : List Int),
    regs.length = 36 → n + conf.length ≤ 24 →
    tscLoop conf n a regs =
      match firstViolation 39 a conf with
      | some v => .error (.tooManyRegisters v)
      | none => .ok (tscFill conf n regs)
  | [], n, a, regs, _, _ => by
    simp [tscLoop, firstViolation, tscFill]
  | e :: rest, n, a, regs, h36, hn => by
    have hn24 : n < 24 := by
      simp only [List.length_cons] at hn
      omega
    have h1 : n < regs.length := by omega
    have h2 : n / 2 + 24 < (regs.set n e.1).length := by
      rw [List.length_set]
      omega
    rw [tscLoop, setIdxE_of_lt _ _ _ h1]
    dsimp only
    rw [firstViolation]
    have harg : (if n % 2 = 0 then addIdxE (regs.set n e.1) (n / 2 + 24) e.2
        else addIdxE (regs.set n e.1) (n / 2 + 24) (e.2 * 256)) =
        .ok (if n % 2 = 0 then addIdx (regs.set n e.1) (n / 2 + 24) e.2
        else addIdx (regs.set n e.1) (n / 2 + 24) (e.2 * 256)) := by
      by_cases hp : n % 2 = 0
      · simp [hp, addIdxE_of_lt _ _ _ h2]
      · simp [hp, addIdxE_of_lt _ _ _ h2]
    rw [harg]
    dsimp only
    by_cases hb : 39 < a + e.2
    · simp [hb]
    · have hrec := tscLoop_eq rest (n + 1) (a + e.2)
        (if n % 2 = 0 then addIdx (regs.set n e.1) (n / 2 + 24) e.2
         else addIdx (regs.set n e.1) (n / 2 + 24) (e.2 * 256))
        (by by_cases hp : n % 2 = 0 <;> simp [hp, addIdx, h36])
        (by simp only [List.length_cons] at hn; omega)
      simp [hb, hrec, tscFill]

theorem iwcPack_eq (conf : List (Int × Int)) :
    iwcPack conf =
      if 10 < conf.length then .error (.tooManyPackages conf.length)
      else
        match firstViolation 30 0 conf with
        | some v => .error (.tooManyRegisters v)
        | none => .ok (iwcFill conf 0 (List.replicate 15 0)) := by
  unfold iwcPack IwcConfiguration.init
  by_cases h : 10 < conf.length
  · simp [h]
  · rw [if_neg h, if_neg h]
    simp only
    rw [IwcConfiguration.modbus_package,
      iwcLoop_eq conf 0 0 _ (by simp) (by omega)]

theorem tscPack_eq (conf : List (Int × Int)) :
    tscPack conf =
      if 24 < conf.length then .error (.tooManyPackages conf.length)
      else
        match firstViolation 39 0 conf with
        | some v => .error (.tooManyRegisters v)
        | none => .ok (tscFill conf 0 (List.replicate 36 0)) := by
  unfold tscPack TscConfiguration.init
  by_cases h : 24 < conf.length
  · simp [h]
  · rw [if_neg h, if_neg h]
    simp only
    rw [TscConfiguration.modbus_package,
      tscLoop_eq conf 0 0 _ (by simp) (by omega)]

theorem firstViolation_none_iff (b : Int) : ∀ (conf : List (Int × Int)) (a : Int),
    firstViolation b a conf = none ↔
      ∀ k, 1 ≤ k → k ≤ conf.length → a + prefixSum conf k ≤ b
  | [], a => by
    simp only [firstViolation, List.length_nil, true_iff]
    intro k h1 h2
    omega
  | e :: rest, a => by
    rw [firstViolation]
    by_cases hb : b < a + e.2
    · rw [if_pos hb]
      simp only [false_iff, not_forall, reduceCtorEq]
      refine ⟨1, by omega, by simp, ?_⟩
      rw [prefixSum_one]
      omega
    · rw [if_neg hb, firstViolation_none_iff b rest (a + e.2)]
      constructor
      · intro h k h1 h2
        rcases Nat.exists_eq_add_of_le h1 with ⟨j, hj⟩
        subst hj
        rw [Nat.add_comm 1 j, prefixSum_cons]
        rcases Nat.eq_zero_or_pos j with hj0 | hj0
        · subst hj0
          rw [prefixSum_zero]
          omega
        · have := h j hj0 (by simp at h2; omega)
          omega
      · intro h k h1 h2
        have := h (k + 1) (by omega) (by simp; omega)
        rw [prefixSum_cons] at this
        omega

theorem firstViolation_some (b : Int) : ∀ (conf : List (Int × Int)) (a v : Int),
    firstViolation b a conf = some v →
      ∃ k, 1 ≤ k ∧ k ≤ conf.length ∧ v = a + prefixSum conf k ∧ b < v ∧
        ∀ j, 1 ≤ j → j < k → a + prefixSum conf j ≤ b
  | [], a, v => by simp [firstViolation]
  | e :: rest, a, v => by
    rw [firstViolation]
    by_cases hb : b < a + e.2
    · rw [if_pos hb]
      intro h
      refine ⟨1, le_refl 1, by simp, ?_, ?_, ?_⟩
      · rw [prefixSum_one]
        cases h
        omega
      · cases h
        exact hb
      · intro j h1 h2
        omega
    · rw [if_neg hb]
      intro h
      rcases firstViolation_some b rest (a + e.2) v h with ⟨k, hk1, hk2, hk3, hk4, hk5⟩
      refine ⟨k + 1, by omega, by simp; omega, ?_, hk4, ?_⟩
      · rw [prefixSum_cons]
        omega
      · intro j h1 h2
        rcases Nat.exists_eq_add_of_le h1 with ⟨i, hi⟩
        subst hi
        rw [Nat.add_comm 1 i, prefixSum_cons]
        rcases Nat.eq_zero_or_pos i with hi0 | hi0
        · subst hi0
          rw [prefixSum_zero]
          omega
        · have := hk5 i hi0 (by omega)
          omega

theorem firstViolation_eq_some (b : Int) : ∀ (conf : List (Int × Int)) (a : Int) (k : Nat),
    1 ≤ k → k ≤ conf.length → b < a + prefixSum conf k →
    (∀ j, 1 ≤ j → j < k → a + prefixSum conf j ≤ b) →
    firstViolation b a conf = some (a + prefixSum conf k)
  | [], a, k, h1, h2, _, _ => by
    simp only [List.length_nil] at h2
    omega
  | e :: rest, a, k, h1, h2, h3, h4 => by
    rw [firstViolation]
    rcases Nat.exists_eq_add_of_le h1 with ⟨i, hi⟩
    subst hi
    rw [Nat.add_comm 1 i] at h2 h3 ⊢
    rcases Nat.eq_zero_or_pos i with hi0 | hi0
    · subst hi0
      rw [prefixSum_cons, prefixSum_zero] at h3 ⊢
      rw [if_pos (by omega)]
      congr 1
      omega
    · have hle : a + e.2 ≤ b := by
        have := h4 1 (le_refl 1) (by omega)
        rw [prefixSum_one] at this
        omega
      rw [if_neg (by omega), prefixSum_cons]
      rw [prefixSum_cons] at h3
      have hmin : ∀ j, 1 ≤ j → j < i → (a + e.2) + prefixSum rest j ≤ b := by
        intro j hj1 hj2
        have := h4 (j + 1) (by omega) (by omega)
        rw [prefixSum_cons] at this
        omega
      have := firstViolation_eq_some b rest (a + e.2) i hi0
        (by simp at h2; omega) (by omega) hmin
      rw [this]
      congr 1
      omega

theorem contribA_eq_zero_low : ∀ (conf : List (Int × Int)) (n j : Nat), j < n →
    contribA conf n j = 0
  | [], _, _, _ => rfl
  | e :: rest, n, j, h => by
    rw [contribA, if_neg (by omega), contribA_eq_zero_low rest (n + 1) j (by omega)]
    simp

theorem contribA_eq_zero_high : ∀ (conf : List (Int × Int)) (n j : Nat),
    n + conf.length ≤ j → contribA conf n j = 0
  | [], _, _, _ => rfl
  | e :: rest, n, j, h => by
    simp only [List.length_cons] at h
    rw [contribA, if_neg (by omega),
      contribA_eq_zero_high rest (n + 1) j (by omega)]
    simp

theorem contribA_eq_getD : ∀ (conf : List (Int × Int)) (n j : Nat), n ≤ j →
    j < n + conf.length → contribA conf n j = (conf.getD (j - n) (0, 0)).1
  | [], n, j, h1, h2 => by
    simp only [List.length_nil] at h2
    omega
  | e :: rest, n, j, h1, h2 => by
    rw [contribA]
    rcases eq_or_ne n j with h | h
    · subst h
      rw [if_pos rfl, contribA_eq_zero_low rest (n + 1) n (by omega)]
      simp
    · rw [if_neg h, contribA_eq_getD rest (n + 1) j (by omega)
        (by simp only [List.length_cons] at h2; omega)]
      have hidx : j - n = (j - (n + 1)) + 1 := by omega
      rw [hidx, List.getD_cons_succ]
      simp

theorem contribB_eq_zero_low : ∀ (conf : List (Int × Int)) (n j : Nat), j < 10 →
    contribB conf n j = 0
  | [], _, _, _ => rfl
  | e :: rest, n, j, h => by
    rw [contribB, if_neg (by omega), contribB_eq_zero_low rest (n + 1) j h]
    simp

theorem contribBT_eq_zero_low : ∀ (conf : List (Int × Int)) (n j : Nat), j < 24 →
    contribBT conf n j = 0
  | [], _, _, _ => rfl
  | e :: rest, n, j, h => by
    rw [contribBT, if_neg (by omega), contribBT_eq_zero_low rest (n + 1) j h]
    simp

theorem iwcFill_getD : ∀ (conf : List (Int × Int)) (n : Nat) (regs : List Int),
    regs.length = 15 → n + conf.length ≤ 10 → ∀ j, j < 15 →
    (iwcFill conf n regs).getD j 0 =
      regs.getD j 0 + contribA conf n j + contribB conf n j
  | [], n, regs, _, _, j, _ => by
    simp [iwcFill, contribA, contribB]
  | e :: rest, n, regs, h15, hn, j, hj => by
    have hn10 : n < 10 := by
      simp only [List.length_cons] at hn
      omega
    have h1 : n < regs.length := by omega
    have h2 : n / 4 + 10 < (addIdx regs n e.1).length := by
      rw [addIdx_length]
      omega
    rw [iwcFill, iwcFill_getD rest (n + 1) _
      (by rw [addIdx_length, addIdx_length]; exact h15)
      (by simp only [List.length_cons] at hn; omega) j hj]
    rw [addIdx_getD _ _ _ _ h2, addIdx_getD _ _ _ _ h1]
    rw [contribA, contribB]
    ring

theorem tscFill_getD_low : ∀ (conf : List (Int × Int)) (n : Nat) (regs : List Int),
    regs.length = 36 → n + conf.length ≤ 24 → ∀ j, j < 24 →
    (tscFill conf n regs).getD j 0 =
      if n ≤ j ∧ j < n + conf.length then (conf.getD (j - n) (0, 0)).1
      else regs.getD j 0
  | [], n, regs, _, _, j, _ => by
    rw [tscFill, if_neg (by simp only [List.length_nil]; omega)]
  | e :: rest, n, regs, h36, hn, j, hj => by
    have hn24 : n < 24 := by
      simp only [List.length_cons] at hn
      omega
    have h1 : n < regs.length := by omega
    have h2 : n / 2 + 24 < (regs.set n e.1).length := by
      rw [List.length_set]
      omega
    have hset : ∀ v : Int,
        (addIdx (regs.set n e.1) (n / 2 + 24) v).getD j 0 =
          if n = j then e.1 else regs.getD j 0 := by
      intro v
      rw [addIdx_getD _ _ _ _ h2, set_getD _ _ _ _ h1,
        if_neg (show ¬(n / 2 + 24 = j) by omega)]
      simp
    have hrec : (tscFill (e :: rest) n regs).getD j 0 =
        if n + 1 ≤ j ∧ j < n + 1 + rest.length then (rest.getD (j - (n + 1)) (0, 0)).1
        else if n = j then e.1 else regs.getD j 0 := by
      rw [tscFill]
      by_cases hp : n % 2 = 0
      · rw [if_pos hp, tscFill_getD_low rest (n + 1) _
          (by rw [addIdx_length, List.length_set]; exact h36)
          (by simp only [List.length_cons] at hn; omega) j hj]
        rcases Decidable.em (n + 1 ≤ j ∧ j < n + 1 + rest.length) with h | h
        · rw [if_pos h, if_pos h]
        · rw [if_neg h, if_neg h, hset]
      · rw [if_neg hp, tscFill_getD_low rest (n + 1) _
          (by rw [addIdx_length, List.length_set]; exact h36)
          (by simp only [List.length_cons] at hn; omega) j hj]
        rcases Decidable.em (n + 1 ≤ j ∧ j < n + 1 + rest.length) with h | h
        · rw [if_pos h, if_pos h]
        · rw [if_neg h, if_neg h, hset]
    rw [hrec]
    simp only [List.length_cons]
    rcases eq_or_ne n j with h | h
    · subst h
      rw [if_neg (by omega), if_pos rfl, if_pos (by omega)]
      simp
    · rcases Decidable.em (n + 1 ≤ j ∧ j < n + 1 + rest.length) with hc | hc
      · rw [if_pos hc, if_pos (by omega)]
        have hidx : j - n = (j - (n + 1)) + 1 := by omega
        rw [hidx, List.getD_cons_succ]
      · rw [if_neg hc, if_neg h, if_neg (by omega)]

theorem tscFill_getD_high : ∀ (conf : List (Int × Int)) (n : Nat) (regs : List Int),
    regs.length = 36 → n + conf.length ≤ 24 → ∀ j, 24 ≤ j → j < 36 →
    (tscFill conf n regs).getD j 0 = regs.getD j 0 + contribBT conf n j
  | [], n, regs, _, _, j, _, _ => by
    simp [tscFill, contribBT]
  | e :: rest, n, regs, h36, hn, j, hj1, hj2 => by
    have hn24 : n < 24 := by
      simp only [List.length_cons] at hn
      omega
    have h1 : n < regs.length := by omega
    have h2 : n / 2 + 24 < (regs.set n e.1).length := by
      rw [List.length_set]
      omega
    have hset : ∀ v : Int,
        (addIdx (regs.set n e.1) (n / 2 + 24) v).getD j 0 =
          regs.getD j 0 + (if n / 2 + 24 = j then v else 0) := by
      intro v
      rw [addIdx_getD _ _ _ _ h2, set_getD _ _ _ _ h1,
        if_neg (show ¬(n = j) by omega)]
    rw [tscFill, contribBT]
    by_cases hp : n % 2 = 0
    · rw [if_pos hp, tscFill_getD_high rest (n + 1) _
        (by rw [addIdx_length, List.length_set]; exact h36)
        (by simp only [List.length_cons] at hn; omega) j hj1 hj2, hset]
      rw [hp]
      rcases Decidable.em (n / 2 + 24 = j) with h | h
      · rw [if_pos h, if_pos h, pow_zero, mul_one]
        ring
      · rw [if_neg h, if_neg h]
        ring
    · have hp1 : n % 2 = 1 := by omega
      rw [if_neg hp, tscFill_getD_high rest (n + 1) _
        (by rw [addIdx_length, List.length_set]; exact h36)
        (by simp only [List.length_cons] at hn; omega) j hj1 hj2, hset]
      rw [hp1]
      rcases Decidable.em (n / 2 + 24 = j) with h | h
      · rw [if_pos h, if_pos h]
        ring
      · rw [if_neg h, if_neg h]
        ring

theorem sumRc_cons (e : Int × Int) (rest : List (Int × Int)) :
    sumRc (e :: rest) = e.2 + sumRc rest := by
  simp [sumRc]

theorem contribB_eq_sum : ∀ (conf : List (Int × Int)) (n j : Nat),
    contribB conf n j =
      ∑ i ∈ Finset.range conf.length,
        if (n + i) / 4 + 10 = j then (conf.getD i (0, 0)).2 * 16 ^ ((n + i) % 4)
        else 0
  | [], n, j => by simp [contribB]
  | e :: rest, n, j => by
    rw [contribB, contribB_eq_sum rest (n + 1) j, List.length_cons,
      Finset.sum_range_succ', add_comm]
    congr 1
    · apply Finset.sum_congr rfl
      intro i _
      rw [List.getD_cons_succ]
      have harith : n + (i + 1) = (n + 1) + i := by omega
      rw [harith]

theorem contribBT_eq_sum : ∀ (conf : List (Int × Int)) (n j : Nat),
    contribBT conf n j =
      ∑ i ∈ Finset.range conf.length,
        if (n + i) / 2 + 24 = j then (conf.getD i (0, 0)).2 * 256 ^ ((n + i) % 2)
        else 0
  | [], n, j => by simp [contribBT]
  | e :: rest, n, j => by
    rw [contribBT, contribBT_eq_sum rest (n + 1) j, List.length_cons,
      Finset.sum_range_succ', add_comm]
    congr 1
    · apply Finset.sum_congr rfl
      intro i _
      rw [List.getD_cons_succ]
      have harith : n + (i + 1) = (n + 1) + i := by omega
      rw [harith]

theorem contribA_bound : ∀ (conf : List (Int × Int)) (n j : Nat),
    (∀ e ∈ conf, 0 ≤ e.1 ∧ e.1 ≤ 65535) →
    0 ≤ contribA conf n j ∧ contribA conf n j ≤ 65535
  | [], _, _, _ => by simp [contribA]
  | e :: rest, n, j, h => by
    have he := h e (List.mem_cons_self e rest)
    have hr := contribA_bound rest (n + 1) j (fun x hx => h x (List.mem_cons_of_mem e hx))
    rw [contribA]
    rcases eq_or_ne n j with hnj | hnj
    · subst hnj
      rw [if_pos rfl, contribA_eq_zero_low rest (n + 1) n (by omega)]
      constructor <;> omega
    · rw [if_neg hnj]
      constructor <;> omega

theorem contribB_bound : ∀ (conf : List (Int × Int)) (n j : Nat),
    (∀ e ∈ conf, 0 ≤ e.2 ∧ e.2 ≤ 15) → 10 ≤ j →
    0 ≤ contribB conf n j ∧
    (n / 4 + 10 = j → contribB conf n j ≤ 65536 - 16 ^ (n % 4)) ∧
    (n / 4 + 10 < j → contribB conf n j ≤ 65535) ∧
    (j < n / 4 + 10 → contribB conf n j = 0)
  | [], n, j, _, _ => by
    simp only [contribB]
    have h4 : n % 4 = 0 ∨ n % 4 = 1 ∨ n % 4 = 2 ∨ n % 4 = 3 := by omega
    rcases h4 with h | h | h | h <;> rw [h] <;> norm_num
  | e :: rest, n, j, h, hj => by
    have he := h e (List.mem_cons_self e rest)
    have hr := contribB_bound rest (n + 1) j
      (fun x hx => h x (List.mem_cons_of_mem e hx)) hj
    rw [contribB]
    have h4 : n % 4 = 0 ∨ n % 4 = 1 ∨ n % 4 = 2 ∨ n % 4 = 3 := by omega
    rcases h4 with hm | hm | hm | hm
    · have hdiv : (n + 1) / 4 = n / 4 := by omega
      have hmod : (n + 1) % 4 = 1 := by omega
      rw [hdiv, hmod] at hr
      rw [hm]
      norm_num at hr ⊢
      have h0 := hr.1
      have hub : contribB rest (n + 1) j ≤ 65535 := by
        rcases Nat.lt_trichotomy (n / 4 + 10) j with hc | hc | hc
        · have := hr.2.2.1 hc
          omega
        · have := hr.2.1 hc
          omega
        · have := hr.2.2.2 hc
          omega
      rcases Nat.lt_trichotomy (n / 4 + 10) j with hc | hc | hc
      · rw [if_neg (by omega)]
        have := hr.2.2.1 hc
        refine ⟨by omega, fun hcc => by omega, fun hcc => by omega, fun hcc => by omega⟩
      · rw [if_pos hc]
        have := hr.2.1 hc
        refine ⟨by omega, fun hcc => by omega, fun hcc => by omega, fun hcc => by omega⟩
      · rw [if_neg (by omega)]
        have := hr.2.2.2 hc
        refine ⟨by omega, fun hcc => by omega, fun hcc => by omega, fun hcc => by omega⟩
    · have hdiv : (n + 1) / 4 = n / 4 := by omega
      have hmod : (n + 1) % 4 = 2 := by omega
      rw [hdiv, hmod] at hr
      rw [hm]
      norm_num at hr ⊢
      have h0 := hr.1
      have hub : contribB rest (n + 1) j ≤ 65535 := by
        rcases Nat.lt_trichotomy (n / 4 + 10) j with hc | hc | hc
        · have := hr.2.2.1 hc
          omega
        · have := hr.2.1 hc
          omega
        · have := hr.2.2.2 hc
          omega
      rcases Nat.lt_trichotomy (n / 4 + 10) j with hc | hc | hc
      · rw [if_neg (by omega)]
        have := hr.2.2.1 hc
        refine ⟨by omega, fun hcc => by omega, fun hcc => by omega, fun hcc => by omega⟩
      · rw [if_pos hc]
        have := hr.2.1 hc
        refine ⟨by omega, fun hcc => by omega, fun hcc => by omega, fun hcc => by omega⟩
      · rw [if_neg (by omega)]
        have := hr.2.2.2 hc
        refine ⟨by omega, fun hcc => by omega, fun hcc => by omega, fun hcc => by omega⟩
    · have hdiv : (n + 1) / 4 = n / 4 := by omega
      have hmod : (n + 1) % 4 = 3 := by omega
      rw [hdiv, hmod] at hr
      rw [hm]
      norm_num at hr ⊢
      have h0 := hr.1
      have hub : contribB rest (n + 1) j ≤ 65535 := by
        rcases Nat.lt_trichotomy (n / 4 + 10) j with hc | hc | hc
        · have := hr.2.2.1 hc
          omega
        · have := hr.2.1 hc
          omega
        · have := hr.2.2.2 hc
          omega
      rcases Nat.lt_trichotomy (n / 4 + 10) j with hc | hc | hc
      · rw [if_neg (by omega)]
        have := hr.2.2.1 hc
        refine ⟨by omega, fun hcc => by omega, fun hcc => by omega, fun hcc => by omega⟩
      · rw [if_pos hc]
        have := hr.2.1 hc
        refine ⟨by omega, fun hcc => by omega, fun hcc => by omega, fun hcc => by omega⟩
      · rw [if_neg (by omega)]
        have := hr.2.2.2 hc
        refine ⟨by omega, fun hcc => by omega, fun hcc => by omega, fun hcc => by omega⟩
    · have hdiv : (n + 1) / 4 = n / 4 + 1 := by omega
      have hmod : (n + 1) % 4 = 0 := by omega
      rw [hdiv, hmod] at hr
      rw [hm]
      norm_num at hr ⊢
      have h0 := hr.1
      have hub : contribB rest (n + 1) j ≤ 65535 := by
        rcases Nat.lt_trichotomy (n / 4 + 1 + 10) j with hc | hc | hc
        · have := hr.2.2.1 hc
          omega
        · have := hr.2.1 hc
          omega
        · have := hr.2.2.2 hc
          omega
      rcases Nat.lt_trichotomy (n / 4 + 10) j with hc | hc | hc
      · rw [if_neg (by omega)]
        refine ⟨by omega, fun hcc => by omega, fun hcc => by omega, fun hcc => by omega⟩
      · rw [if_pos hc]
        have := hr.2.2.2 (by omega)
        refine ⟨by omega, fun hcc => by omega, fun hcc => by omega, fun hcc => by omega⟩
      · rw [if_neg (by omega)]
        have := hr.2.2.2 (by omega)
        refine ⟨by omega, fun hcc => by omega, fun hcc => by omega, fun hcc => by omega⟩

theorem contribBT_bound : ∀ (conf : List (Int × Int)) (n j : Nat),
    (∀ e ∈ conf, 0 ≤ e.2) →
    0 ≤ contribBT conf n j ∧ contribBT conf n j ≤ 256 * sumRc conf
  | [], _, _, _ => by simp [contribBT, sumRc]
  | e :: rest, n, j, h => by
    have he := h e (List.mem_cons_self e rest)
    have hr := contribBT_bound rest (n + 1) j (fun x hx => h x (List.mem_cons_of_mem e hx))
    rw [contribBT, sumRc_cons]
    have h2 : n % 2 = 0 ∨ n % 2 = 1 := by omega
    rcases h2 with hm | hm <;> rw [hm] <;> norm_num <;>
      rcases Decidable.em (n / 2 + 24 = j) with hc | hc
    · rw [if_pos hc]
      constructor <;> omega
    · rw [if_neg hc]
      constructor <;> omega
    · rw [if_pos hc]
      constructor <;> omega
    · rw [if_neg hc]
      constructor <;> omega

theorem iwcPack_ok_elim (conf : List (Int × Int)) (l : List Int)
    (h : iwcPack conf = .ok l) :
    conf.length ≤ 10 ∧ firstViolation 30 0 conf = none ∧
      l = iwcFill conf 0 (List.replicate 15 0) := by
  rw [iwcPack_eq] at h
  by_cases hl : 10 < conf.length
  · rw [if_pos hl] at h
    cases h
  · rw [if_neg hl] at h
    cases hfv : firstViolation 30 0 conf with
    | none =>
      rw [hfv] at h
      cases h
      exact ⟨by omega, rfl, rfl⟩
    | some v =>
      rw [hfv] at h
      cases h

theorem tscPack_ok_elim (conf : List (Int × Int)) (l : List Int)
    (h : tscPack conf = .ok l) :
    conf.length ≤ 24 ∧ firstViolation 39 0 conf = none ∧
      l = tscFill conf 0 (List.replicate 36 0) := by
  rw [tscPack_eq] at h
  by_cases hl : 24 < conf.length
  · rw [if_pos hl] at h
    cases h
  · rw [if_neg hl] at h
    cases hfv : firstViolation 39 0 conf with
    | none =>
      rw [hfv] at h
      cases h
      exact ⟨by omega, rfl, rfl⟩
    | some v =>
      rw [hfv] at h
      cases h

theorem iwc_isErr_iff (conf : List (Int × Int)) :
    isErr (iwcPack conf) = true ↔
      (10 < conf.length ∨ ∃ k, k ≤ conf.length ∧ 30 < prefixSum conf k) := by
  rw [iwcPack_eq]
  by_cases hl : 10 < conf.length
  · rw [if_pos hl]
    exact ⟨fun _ => Or.inl hl, fun _ => rfl⟩
  · rw [if_neg hl]
    cases hfv : firstViolation 30 0 conf with
    | none =>
      constructor
      · intro h
        simp [isErr] at h
      · intro h
        rcases h with h | ⟨k, hk1, hk2⟩
        · omega
        · have hk0 : 1 ≤ k := by
            rcases Nat.eq_zero_or_pos k with h0 | h0
            · subst h0
              rw [prefixSum_zero] at hk2
              omega
            · exact h0
          have hle := (firstViolation_none_iff 30 conf 0).mp hfv k hk0 hk1
          rw [zero_add] at hle
          omega
    | some v =>
      constructor
      · intro _
        right
        rcases firstViolation_some 30 conf 0 v hfv with ⟨k, _, hk2, hk3, hk4, _⟩
        rw [hk3, zero_add] at hk4
        exact ⟨k, hk2, hk4⟩
      · intro _
        rfl

theorem tsc_isErr_iff (conf : List (Int × Int)) :
    isErr (tscPack conf) = true ↔
      (24 < conf.length ∨ ∃ k, k ≤ conf.length ∧ 39 < prefixSum conf k) := by
  rw [tscPack_eq]
  by_cases hl : 24 < conf.length
  · rw [if_pos hl]
    exact ⟨fun _ => Or.inl hl, fun _ => rfl⟩
  · rw [if_neg hl]
    cases hfv : firstViolation 39 0 conf with
    | none =>
      constructor
      · intro h
        simp [isErr] at h
      · intro h
        rcases h with h | ⟨k, hk1, hk2⟩
        · omega
        · have hk0 : 1 ≤ k := by
            rcases Nat.eq_zero_or_pos k with h0 | h0
            · subst h0
              rw [prefixSum_zero] at hk2
              omega
            · exact h0
          have hle := (firstViolation_none_iff 39 conf 0).mp hfv k hk0 hk1
          rw [zero_add] at hle
          omega
    | some v =>
      constructor
      · intro _
        right
        rcases firstViolation_some 39 conf 0 v hfv with ⟨k, _, hk2, hk3, hk4, _⟩
        rw [hk3, zero_add] at hk4
        exact ⟨k, hk2, hk4⟩
      · intro _
        rfl

theorem take_prefixSum_eq (conf conf2 : List (Int × Int)) (k : Nat)
    (htake : conf2.take k = conf.take k) :
    ∀ j, j ≤ k → prefixSum conf2 j = prefixSum conf j := by
  intro j hj
  have h2 := congrArg (List.take j) htake
  rw [List.take_take, List.take_take, inf_eq_left.mpr hj] at h2
  unfold prefixSum
  rw [h2]

theorem iwc_earliest (conf : List (Int × Int)) (k : Nat) (_hlen : conf.length ≤ 10)
    (hk : k ≤ conf.length) (hkv : 30 < prefixSum conf k)
    (hmin : ∀ j, j < k → prefixSum conf j ≤ 30)
    (conf2 : List (Int × Int)) (hlen2 : conf2.length ≤ 10)
    (htake : conf2.take k = conf.take k) :
    iwcPack conf2 = .error (.tooManyRegisters (prefixSum conf k)) := by
  have hk1 : 1 ≤ k := by
    rcases Nat.eq_zero_or_pos k with h0 | h0
    · subst h0
      rw [prefixSum_zero] at hkv
      omega
    · exact h0
  have hk2 : k ≤ conf2.length := by
    have h1 := congrArg List.length htake
    rw [List.length_take, List.length_take] at h1
    omega
  have hps := take_prefixSum_eq conf conf2 k htake
  have hfv : firstViolation 30 0 conf2 = some (0 + prefixSum conf2 k) :=
    firstViolation_eq_some 30 conf2 0 k hk1 hk2
      (by rw [zero_add, hps k le_rfl]; exact hkv)
      (fun j _ hj2 => by rw [zero_add, hps j (by omega)]; exact hmin j hj2)
  rw [zero_add, hps k le_rfl] at hfv
  rw [iwcPack_eq, if_neg (by omega), hfv]

theorem tsc_earliest (conf : List (Int × Int)) (k : Nat) (_hlen : conf.length ≤ 24)
    (hk : k ≤ conf.length) (hkv : 39 < prefixSum conf k)
    (hmin : ∀ j, j < k → prefixSum conf j ≤ 39)
    (conf2 : List (Int × Int)) (hlen2 : conf2.length ≤ 24)
    (htake : conf2.take k = conf.take k) :
    tscPack conf2 = .error (.tooManyRegisters (prefixSum conf k)) := by
  have hk1 : 1 ≤ k := by
    rcases Nat.eq_zero_or_pos k with h0 | h0
    · subst h0
      rw [prefixSum_zero] at hkv
      omega
    · exact h0
  have hk2 : k ≤ conf2.length := by
    have h1 := congrArg List.length htake
    rw [List.length_take, List.length_take] at h1
    omega
  have hps := take_prefixSum_eq conf conf2 k htake
  have hfv : firstViolation 39 0 conf2 = some (0 + prefixSum conf2 k) :=
    firstViolation_eq_some 39 conf2 0 k hk1 hk2
      (by rw [zero_add, hps k le_rfl]; exact hkv)
      (fun j _ hj2 => by rw [zero_add, hps j (by omega)]; exact hmin j hj2)
  rw [zero_add, hps k le_rfl] at hfv
  rw [tscPack_eq, if_neg (by omega), hfv]

/-- C1: for either telemetry packer, packing an entry sequence fails with a
validation error exactly when the entry count strictly exceeds max_entries
(24 for TSC, 10 for IWC) or the running register_count sum strictly exceeds
the budget (39 for TSC, 30 for IWC) at some prefix; equality never fails.
Moreover, when the count is in range and some prefix exceeds the budget, the
result is the budget error carrying the running total of the earliest
violating prefix, and it is unchanged under replacing all entries after
that prefix; the error result carries no register list at all. -/
theorem pack_failure_iff :
    (∀ conf : List (Int × Int), isErr (iwcPack conf) = true ↔
      (10 < conf.length ∨ ∃ k, k ≤ conf.length ∧ 30 < prefixSum conf k)) ∧
    (∀ conf : List (Int × Int), isErr (tscPack conf) = true ↔
      (24 < conf.length ∨ ∃ k, k ≤ conf.length ∧ 39 < prefixSum conf k)) ∧
    (∀ (conf : List (Int × Int)) (k : Nat), conf.length ≤ 10 → k ≤ conf.length →
      30 < prefixSum conf k → (∀ j, j < k → prefixSum conf j ≤ 30) →
      ∀ conf2 : List (Int × Int), conf2.length ≤ 10 → conf2.take k = conf.take k →
        iwcPack conf2 = .error (.tooManyRegisters (prefixSum conf k))) ∧
    (∀ (conf : List (Int × Int)) (k : Nat), conf.length ≤ 24 → k ≤ conf.length →
      39 < prefixSum conf k → (∀ j, j < k → prefixSum conf j ≤ 39) →
      ∀ conf2 : List (Int × Int), conf2.length ≤ 24 → conf2.take k = conf.take k →
        tscPack conf2 = .error (.tooManyRegisters (prefixSum conf k))) :=
  ⟨iwc_isErr_iff, tsc_isErr_iff, iwc_earliest, tsc_earliest⟩

/-- Witness for C1: the sequence 25, 10, 1 first exceeds the IWC budget at
its second entry, and packing reports exactly that running total, 35. -/
theorem pack_failure_iff_witness :
    iwcPack [(0, 25), (0, 10), (0, 1)] =
      .error (.tooManyRegisters (prefixSum [(0, 25), (0, 10), (0, 1)] 2)) :=
  pack_failure_iff.2.2.1 [(0, 25), (0, 10), (0, 1)] 2 (by decide) (by decide)
    (by decide) (by decide) [(0, 25), (0, 10), (0, 1)] (by decide) rfl

/-- C9 counterexample: a single IWC entry of 31 registers exceeds the
budget of 30, yet construction of the configuration object succeeds; the
budget error is only raised when modbus_package is derived.  This refutes
the claim that the budget violation is rejected at construction time. -/
theorem iwc_overbudget_constructs :
    IwcConfiguration.init [(0, 31)] = .ok [(0, 31)] ∧
    IwcConfiguration.modbus_package [(0, 31)] = .error (.tooManyRegisters 31) :=
  ⟨by decide, by decide⟩

/-- C9 amended: only the entry-count check runs at construction time; the
budget check runs on the first derivation of modbus_package, which then
raises before returning any register list, so an over-budget sequence
still never yields a register list, but its configuration object is
constructed without error. -/
theorem budget_error_on_derivation :
    (∀ conf : List (Int × Int), 10 < conf.length →
      isErr (IwcConfiguration.init conf) = true) ∧
    (∀ conf : List (Int × Int), conf.length ≤ 10 → 30 < sumRc conf →
      IwcConfiguration.init conf = .ok conf ∧
      isErr (IwcConfiguration.modbus_package conf) = true) ∧
    (∀ conf : List (Int × Int), 24 < conf.length →
      isErr (TscConfiguration.init conf) = true) ∧
    (∀ conf : List (Int × Int), conf.length ≤ 24 → 39 < sumRc conf →
      TscConfiguration.init conf = .ok conf ∧
      isErr (TscConfiguration.modbus_package conf) = true) := by
  refine ⟨?_, ?_, ?_, ?_⟩
  · intro conf hlen
    rw [IwcConfiguration.init, if_pos hlen]
    rfl
  · intro conf hlen hsum
    have h1 : 1 ≤ conf.length := by
      by_contra hc
      have h0 : conf = [] := List.length_eq_zero.mp (by omega)
      subst h0
      have h2 : sumRc [] = 0 := rfl
      omega
    constructor
    · rw [IwcConfiguration.init, if_neg (by omega)]
    · rw [IwcConfiguration.modbus_package, iwcLoop_eq conf 0 0 _ (by simp) (by omega)]
      cases hfv : firstViolation 30 0 conf with
      | none =>
        exfalso
        have hle := (firstViolation_none_iff 30 conf 0).mp hfv conf.length h1 le_rfl
        rw [zero_add, prefixSum_length] at hle
        omega
      | some v => rfl
  · intro conf hlen
    rw [TscConfiguration.init, if_pos hlen]
    rfl
  · intro conf hlen hsum
    have h1 : 1 ≤ conf.length := by
      by_contra hc
      have h0 : conf = [] := List.length_eq_zero.mp (by omega)
      subst h0
      have h2 : sumRc [] = 0 := rfl
      omega
    constructor
    · rw [TscConfiguration.init, if_neg (by omega)]
    · rw [TscConfiguration.modbus_package, tscLoop_eq conf 0 0 _ (by simp) (by omega)]
      cases hfv : firstViolation 39 0 conf with
      | none =>
        exfalso
        have hle := (firstViolation_none_iff 39 conf 0).mp hfv conf.length h1 le_rfl
        rw [zero_add, prefixSum_length] at hle
        omega
      | some v => rfl

/-- Witness for the C9 amended claim at the concrete input of one entry of
31 registers. -/
theorem budget_error_on_derivation_witness :
    IwcConfiguration.init [(0, 31)] = .ok [(0, 31)] ∧
    isErr (IwcConfiguration.modbus_package [(0, 31)]) = true :=
  budget_error_on_derivation.2.1 [(0, 31)] (by decide) (by decide)

/-- C10: for any entry list accepted by the constructor, the packing loop
never raises an IndexError: bank A indices stay below max_entries and the
bank-B word indices stay below the preallocated length of
floor(max_entries * 1.5) words, 15 for IWC and 36 for TSC. -/
theorem pack_no_index_error :
    (∀ conf : List (Int × Int), conf.length ≤ 10 →
      IwcConfiguration.modbus_package conf ≠ .error .indexError) ∧
    (∀ conf : List (Int × Int), conf.length ≤ 24 →
      TscConfiguration.modbus_package conf ≠ .error .indexError) ∧
    (∀ i, i < 10 → i / 4 + 10 < 15) ∧
    (∀ i, i < 24 → i / 2 + 24 < 36) := by
  refine ⟨?_, ?_, fun i hi => by omega, fun i hi => by omega⟩
  · intro conf hlen
    rw [IwcConfiguration.modbus_package, iwcLoop_eq conf 0 0 _ (by simp) (by omega)]
    cases hfv : firstViolation 30 0 conf with
    | none => simp
    | some v => simp
  · intro conf hlen
    rw [TscConfiguration.modbus_package, tscLoop_eq conf 0 0 _ (by simp) (by omega)]
    cases hfv : firstViolation 39 0 conf with
    | none => simp
    | some v => simp

/-- Witness for C10 at a concrete accepted input. -/
theorem pack_no_index_error_witness :
    IwcConfiguration.modbus_package [(1, 1)] ≠ .error .indexError :=
  pack_no_index_error.1 [(1, 1)] (by decide)

/-- C2: every accepted entry sequence yields a register list of exactly
floor(max_entries * 1.5) words, 15 for IWC and 36 for TSC, whose first
max_entries words hold the entry codes in input order with 0 in every
bank-A position past the last entry. -/
theorem pack_bankA_layout :
    (∀ (conf : List (Int × Int)) (l : List Int), iwcPack conf = .ok l →
      l.length = 15 ∧
      (∀ j, j < conf.length → l.getD j 0 = (conf.getD j (0, 0)).1) ∧
      (∀ j, conf.length ≤ j → j < 10 → l.getD j 0 = 0)) ∧
    (∀ (conf : List (Int × Int)) (l : List Int), tscPack conf = .ok l →
      l.length = 36 ∧
      (∀ j, j < conf.length → l.getD j 0 = (conf.getD j (0, 0)).1) ∧
      (∀ j, conf.length ≤ j → j < 24 → l.getD j 0 = 0)) := by
  constructor
  · intro conf l h
    rcases iwcPack_ok_elim conf l h with ⟨hlen, _, hl⟩
    subst hl
    refine ⟨?_, ?_, ?_⟩
    · rw [iwcFill_length, List.length_replicate]
    · intro j hj
      rw [iwcFill_getD conf 0 _ (by simp) (by omega) j (by omega),
        replicate_getD, contribA_eq_getD conf 0 j (by omega) (by omega),
        contribB_eq_zero_low conf 0 j (by omega), Nat.sub_zero]
      ring
    · intro j hj1 hj2
      rw [iwcFill_getD conf 0 _ (by simp) (by omega) j (by omega),
        replicate_getD, contribA_eq_zero_high conf 0 j (by omega),
        contribB_eq_zero_low conf 0 j (by omega)]
      ring
  · intro conf l h
    rcases tscPack_ok_elim conf l h with ⟨hlen, _, hl⟩
    subst hl
    refine ⟨?_, ?_, ?_⟩
    · rw [tscFill_length, List.length_replicate]
    · intro j hj
      rw [tscFill_getD_low conf 0 _ (by simp) (by omega) j (by omega),
        if_pos (by omega), Nat.sub_zero]
    · intro j hj1 hj2
      rw [tscFill_getD_low conf 0 _ (by simp) (by omega) j hj2,
        if_neg (by omega), replicate_getD]

/-- Witness for C2 at the concrete input of one IWC entry (7, 2). -/
theorem pack_bankA_layout_witness :
    ([7, 0, 0, 0, 0, 0, 0, 0, 0, 0, 2, 0, 0, 0, 0] : List Int).length = 15 :=
  (pack_bankA_layout.1 [(7, 2)]
    [7, 0, 0, 0, 0, 0, 0, 0, 0, 0, 2, 0, 0, 0, 0] (by decide)).1

/-- C3: in an accepted IWC register list, bank-B word w, the output word at
position 10 + w, is the sum over the entries of index i with i / 4 = w of
register_count times 16 ^ (i mod 4): four nibble-packed counts per
word. -/
theorem iwc_bankB_nibbles :
    ∀ (conf : List (Int × Int)) (l : List Int), iwcPack conf = .ok l →
      ∀ w, w < 5 → l.getD (10 + w) 0 =
        ∑ i ∈ Finset.range conf.length,
          if i / 4 = w then (conf.getD i (0, 0)).2 * 16 ^ (i % 4) else 0 := by
  intro conf l h w hw
  rcases iwcPack_ok_elim conf l h with ⟨hlen, _, hl⟩
  subst hl
  rw [iwcFill_getD conf 0 _ (by simp) (by omega) (10 + w) (by omega),
    replicate_getD, contribA_eq_zero_high conf 0 (10 + w) (by omega),
    contribB_eq_sum conf 0 (10 + w), zero_add, zero_add]
  apply Finset.sum_congr rfl
  intro i _
  rw [Nat.zero_add]
  rcases Decidable.em (i / 4 = w) with hc | hc
  · rw [if_pos hc, if_pos (by omega)]
  · rw [if_neg hc, if_neg (by omega)]

/-- Witness for C3 at the concrete input of one IWC entry (3, 5). -/
theorem iwc_bankB_nibbles_witness :
    ([3, 0, 0, 0, 0, 0, 0, 0, 0, 0, 5, 0, 0, 0, 0] : List Int).getD 10 0 =
      ∑ i ∈ Finset.range 1,
        if i / 4 = 0 then (([(3, 5)] : List (Int × Int)).getD i (0, 0)).2 * 16 ^ (i % 4)
        else 0 :=
  iwc_bankB_nibbles [(3, 5)] [3, 0, 0, 0, 0, 0, 0, 0, 0, 0, 5, 0, 0, 0, 0]
    (by decide) 0 (by decide)

/-- C4: in an accepted TSC register list, bank-B word w, the output word at
position 24 + w, is the sum over the entries of index i with i / 2 = w of
register_count times 256 ^ (i mod 2): low byte for even i, high byte for
odd i.  In particular the entries (30000, 4) and (42000, 1) give first
bank-B word 4 + 1 * 256 = 260. -/
theorem tsc_bankB_bytes :
    (∀ (conf : List (Int × Int)) (l : List Int), tscPack conf = .ok l →
      ∀ w, w < 12 → l.getD (24 + w) 0 =
        ∑ i ∈ Finset.range conf.length,
          if i / 2 = w then (conf.getD i (0, 0)).2 * 256 ^ (i % 2) else 0) ∧
    (∃ l, tscPack [(30000, 4), (42000, 1)] = .ok l ∧ l.getD 24 0 = 4 + 1 * 256) := by
  constructor
  · intro conf l h w hw
    rcases tscPack_ok_elim conf l h with ⟨hlen, _, hl⟩
    subst hl
    rw [tscFill_getD_high conf 0 _ (by simp) (by omega) (24 + w) (by omega) (by omega),
      replicate_getD, contribBT_eq_sum conf 0 (24 + w), zero_add]
    apply Finset.sum_congr rfl
    intro i _
    rw [Nat.zero_add]
    rcases Decidable.em (i / 2 = w) with hc | hc
    · rw [if_pos hc, if_pos (by omega)]
    · rw [if_neg hc, if_neg (by omega)]
  · exact ⟨[30000, 42000, 0, 0, 0, 0, 0, 0, 0, 0, 0, 0, 0, 0, 0, 0, 0, 0, 0, 0, 0, 0,
      0, 0, 260, 0, 0, 0, 0, 0, 0, 0, 0, 0, 0, 0], by decide, by decide⟩

/-- Witness for C4 at the concrete input of the two claimed entries. -/
theorem tsc_bankB_bytes_witness :
    ([30000, 42000, 0, 0, 0, 0, 0, 0, 0, 0, 0, 0, 0, 0, 0, 0, 0, 0, 0, 0, 0, 0,
      0, 0, 260, 0, 0, 0, 0, 0, 0, 0, 0, 0, 0, 0] : List Int).getD 24 0 =
      ∑ i ∈ Finset.range 2,
        if i / 2 = 0 then (([(30000, 4), (42000, 1)] : List (Int × Int)).getD i (0, 0)).2
          * 256 ^ (i % 2)
        else 0 :=
  tsc_bankB_bytes.1 [(30000, 4), (42000, 1)]
    [30000, 42000, 0, 0, 0, 0, 0, 0, 0, 0, 0, 0, 0, 0, 0, 0, 0, 0, 0, 0, 0, 0,
      0, 0, 260, 0, 0, 0, 0, 0, 0, 0, 0, 0, 0, 0] (by decide) 0 (by decide)

/-- C5 counterexample: the IWC packer accepts four entries of positive
register counts 1, 1, 1, 27 (total 30, exactly the budget, every code a
valid unsigned word), yet bank-B word 0 becomes
1 + 16 + 256 + 27 * 4096 = 110865, far above 65535.  The register-count
values only fit the nibble layout when each is at most 15. -/
theorem iwc_word_overflow :
    iwcPack [(0, 1), (0, 1), (0, 1), (0, 27)] =
      .ok [0, 0, 0, 0, 0, 0, 0, 0, 0, 0, 110865, 0, 0, 0, 0] ∧
    (65535 : Int) < 110865 :=
  ⟨by decide, by decide⟩

theorem encode_i16_of_range (v : Int) (h1 : -32768 ≤ v) (h2 : v ≤ 32767) :
    encode_i16_as_u16 v = .ok (v % 65536).toNat := by
  rw [encode_i16_as_u16, if_neg (by omega)]

theorem encode_ok_le (v : Int) (u : Nat) (h : encode_i16_as_u16 v = .ok u) :
    u ≤ 65535 := by
  rw [encode_i16_as_u16] at h
  by_cases hc : v < -32768 ∨ 32767 < v
  · rw [if_pos hc] at h
    cases h
  · rw [if_neg hc] at h
    cases h
    have hlt : v % 65536 < 65536 := Int.emod_lt_of_pos v (by norm_num)
    have hge : 0 ≤ v % 65536 := Int.emod_nonneg v (by norm_num)
    omega

theorem f32words_le (q : Rat) : ∀ x ∈ f32words q, x ≤ 65535 := by
  intro x hx
  have h1 : f32bits q % 65536 < 65536 := Nat.mod_lt _ (by norm_num)
  have h2 : f32bits q / 65536 % 65536 < 65536 := Nat.mod_lt _ (by norm_num)
  simp [f32words] at hx
  rcases hx with h | h <;> omega

theorem foldr_f32words_le : ∀ (angles : List Rat),
    ∀ x ∈ angles.foldr (fun a acc => f32words (degToRad64 a) ++ acc) [], x ≤ 65535
  | [] => by simp
  | a :: rest => by
    intro x hx
    rw [List.foldr_cons] at hx
    rcases List.mem_append.mp hx with h | h
    · exact f32words_le _ x h
    · exact foldr_f32words_le rest x h

theorem hexVal_lt (c : Char) (v : Nat) (h : hexVal c = some v) : v < 16 := by
  rw [hexVal] at h
  split_ifs at h with h1 h2 h3 <;> cases h <;> omega

theorem parseHexPairs_lt : ∀ (s : List Char) (bs : List Nat),
    parseHexPairs s = some bs → ∀ b ∈ bs, b < 256
  | [], bs, h => by
    cases h
    intro b hb
    cases hb
  | [_], bs, h => by cases h
  | c1 :: c2 :: rest, bs, h => by
    rcases h1 : hexVal c1 with _ | hi <;>
      rcases h2 : hexVal c2 with _ | lo <;>
      rcases h3 : parseHexPairs rest with _ | bs2 <;>
      simp only [parseHexPairs, h1, h2, h3, reduceCtorEq, Option.some.injEq] at h
    subst h
    intro b hb
    rcases List.mem_cons.mp hb with hb | hb
    · have hhi := hexVal_lt c1 hi h1
      have hlo := hexVal_lt c2 lo h2
      omega
    · exact parseHexPairs_lt rest bs2 h3 b hb

theorem panid_ok_le (s : List Char) (l : List Nat)
    (h : TscPanID.modbus_package s = .ok l) : ∀ x ∈ l, x ≤ 65535 := by
  rw [TscPanID.modbus_package] at h
  cases hp : parseHexPairs s with
  | none =>
    rw [hp] at h
    dsimp only at h
    cases h
  | some bs =>
    rw [hp] at h
    dsimp only at h
    by_cases h8 : bs.length = 8
    · rw [if_pos h8] at h
      cases h
      have hb := parseHexPairs_lt s bs hp
      have hmem : ∀ i, i < bs.length → bs.getD i 0 < 256 := by
        intro i hi
        rw [List.getD_eq_getElem bs 0 hi]
        exact hb _ (List.getElem_mem hi)
      have g0 := hmem 0 (by omega)
      have g1 := hmem 1 (by omega)
      have g2 := hmem 2 (by omega)
      have g3 := hmem 3 (by omega)
      have g4 := hmem 4 (by omega)
      have g5 := hmem 5 (by omega)
      have g6 := hmem 6 (by omega)
      have g7 := hmem 7 (by omega)
      intro x hx
      simp only [List.mem_cons, List.not_mem_nil, or_false] at hx
      rcases hx with rfl | rfl | rfl | rfl <;> omega
    · rw [if_neg h8] at h
      cases h

/-- C8: the signed-to-unsigned 16-bit codec succeeds exactly on the signed
16-bit range, its output always lies in the unsigned 16-bit range, and it
is a bijection from -32768..32767 onto 0..65535; every value outside the
signed range fails with an error. -/
theorem encode_i16_bijection :
    (∀ v : Int, (-32768 ≤ v ∧ v ≤ 32767) ↔ ∃ u, encode_i16_as_u16 v = .ok u) ∧
    (∀ (v : Int) (u : Nat), encode_i16_as_u16 v = .ok u → u ≤ 65535) ∧
    (∀ u : Nat, u ≤ 65535 →
      ∃! v : Int, -32768 ≤ v ∧ v ≤ 32767 ∧ encode_i16_as_u16 v = .ok u) := by
  refine ⟨?_, fun v u h => encode_ok_le v u h, ?_⟩
  · intro v
    constructor
    · intro hv
      exact ⟨(v % 65536).toNat, encode_i16_of_range v hv.1 hv.2⟩
    · rintro ⟨u, hu⟩
      rw [encode_i16_as_u16] at hu
      by_cases hc : v < -32768 ∨ 32767 < v
      · rw [if_pos hc] at hu
        cases hu
      · constructor <;> omega
  · intro u hu
    refine ⟨if u ≤ 32767 then (u : Int) else (u : Int) - 65536, ⟨?_, ?_, ?_⟩, ?_⟩
    · split_ifs <;> omega
    · split_ifs <;> omega
    · rw [encode_i16_of_range _ (by split_ifs <;> omega) (by split_ifs <;> omega)]
      have heq : ((if u ≤ 32767 then (u : Int) else (u : Int) - 65536) % 65536).toNat = u := by
        split_ifs <;> omega
      rw [heq]
    · intro y hy
      rcases hy with ⟨hy1, hy2, hy3⟩
      rw [encode_i16_of_range y hy1 hy2] at hy3
      cases hy3
      split_ifs <;> omega

/-- Witness for C8: 65535 has exactly one signed preimage, -1. -/
theorem encode_i16_bijection_witness :
    ∃! v : Int, -32768 ≤ v ∧ v ≤ 32767 ∧ encode_i16_as_u16 v = .ok 65535 :=
  encode_i16_bijection.2.2 65535 (by decide)

/-- C7: the PanID encoders parse the 16 hex digits as 8 bytes, group them
into 4 big-endian 16-bit words, and return the words in reversed order;
the IWC encoder is the same function as the TSC one, and the input
0000000000000103 yields 0x0103, 0, 0, 0. -/
theorem panid_layout :
    (∀ (s : List Char) (bs : List Nat), parseHexPairs s = some bs → bs.length = 8 →
      TscPanID.modbus_package s =
        .ok ([bs.getD 0 0 * 256 + bs.getD 1 0, bs.getD 2 0 * 256 + bs.getD 3 0,
              bs.getD 4 0 * 256 + bs.getD 5 0, bs.getD 6 0 * 256 + bs.getD 7 0].reverse)) ∧
    (∀ s : List Char, IwcPanID.modbus_package s = TscPanID.modbus_package s) ∧
    TscPanID.modbus_package ("0000000000000103".toList) = .ok [259, 0, 0, 0] ∧
    IwcPanID.modbus_package ("0000000000000103".toList) = .ok [259, 0, 0, 0] := by
  refine ⟨?_, fun s => rfl, by decide, by decide⟩
  intro s bs hp h8
  rw [TscPanID.modbus_package, hp]
  dsimp only
  rw [if_pos h8]
  rfl

/-- Witness for C7 at the concrete input of the claimed example. -/
theorem panid_layout_witness :
    TscPanID.modbus_package ("0000000000000103".toList) =
      .ok ([([0, 0, 0, 0, 0, 0, 1, 3] : List Nat).getD 0 0 * 256
              + ([0, 0, 0, 0, 0, 0, 1, 3] : List Nat).getD 1 0,
            ([0, 0, 0, 0, 0, 0, 1, 3] : List Nat).getD 2 0 * 256
              + ([0, 0, 0, 0, 0, 0, 1, 3] : List Nat).getD 3 0,
            ([0, 0, 0, 0, 0, 0, 1, 3] : List Nat).getD 4 0 * 256
              + ([0, 0, 0, 0, 0, 0, 1, 3] : List Nat).getD 5 0,
            ([0, 0, 0, 0, 0, 0, 1, 3] : List Nat).getD 6 0 * 256
              + ([0, 0, 0, 0, 0, 0, 1, 3] : List Nat).getD 7 0].reverse) :=
  panid_layout.1 ("0000000000000103".toList) [0, 0, 0, 0, 0, 0, 1, 3]
    (by decide) (by decide)

/-- C6 counterexample: at west = east = 1 degree, the product with the
scale constant lies strictly between 34.5 and 35, so the rounding the
claim describes yields 35, but the code applies int(), which truncates
toward zero, and the encoder returns the word 34 for both limits. -/
theorem sw_limit_truncates_not_rounds :
    TscSwMovementLimit.modbus_package 1 1 = .ok [34, 34] ∧
    round ((1 : Rat) * swConst) = 35 ∧ (34 : Nat) ≠ 35 := by
  refine ⟨by decide, ?_, by decide⟩
  have h : ((1 : Rat) * swConst + 1 / 2) = 4955239021819867 / 140737488355328 := by decide
  rw [round_eq, h]
  decide

/-- C6 amended: the software-movement-limit encoder maps each limit to
int(limit * 34.70909090909091) computed in binary64, truncation toward
zero rather than rounding, reinterprets the signed 16-bit result as an
unsigned word, and returns exactly 2 words, west first then east;
whenever either truncated product leaves the signed 16-bit range the
encoder fails instead. -/
theorem sw_limit_layout :
    ∀ west east : Rat,
      -32768 ≤ truncQ (fmul64 west swConst) → truncQ (fmul64 west swConst) ≤ 32767 →
      -32768 ≤ truncQ (fmul64 east swConst) → truncQ (fmul64 east swConst) ≤ 32767 →
      TscSwMovementLimit.modbus_package west east =
        .ok [(truncQ (fmul64 west swConst) % 65536).toNat,
             (truncQ (fmul64 east swConst) % 65536).toNat] := by
  intro west east h1 h2 h3 h4
  rw [TscSwMovementLimit.modbus_package, encode_i16_of_range _ h1 h2,
    encode_i16_of_range _ h3 h4]

/-- Witness for the C6 amended claim: limits of -55 and 55 degrees encode
to the words 63627 and 1909. -/
theorem sw_limit_layout_witness :
    TscSwMovementLimit.modbus_package (-55) 55 = .ok [63627, 1909] :=
  (sw_limit_layout (-55) 55 (by decide) (by decide) (by decide) (by decide)).trans
    (by decide)

theorem iwc_output_range (conf : List (Int × Int))
    (hc : ∀ e ∈ conf, 0 ≤ e.1 ∧ e.1 ≤ 65535 ∧ 0 ≤ e.2 ∧ e.2 ≤ 15)
    (hlen : conf.length ≤ 10) :
    ∀ x ∈ iwcFill conf 0 (List.replicate 15 0), 0 ≤ x ∧ x ≤ 65535 := by
  intro x hx
  rcases List.mem_iff_getElem.mp hx with ⟨j, hj, hxe⟩
  have hj15 : j < 15 := by
    rw [iwcFill_length, List.length_replicate] at hj
    exact hj
  have hget : (iwcFill conf 0 (List.replicate 15 0)).getD j 0 = x := by
    rw [List.getD_eq_getElem _ _ hj]
    exact hxe
  rw [iwcFill_getD conf 0 _ (by simp) (by omega) j hj15, replicate_getD] at hget
  have hA := contribA_bound conf 0 j (fun e he => ⟨(hc e he).1, (hc e he).2.1⟩)
  by_cases hj10 : j < 10
  · rw [contribB_eq_zero_low conf 0 j hj10] at hget
    omega
  · have hB := contribB_bound conf 0 j
      (fun e he => ⟨(hc e he).2.2.1, (hc e he).2.2.2⟩) (by omega)
    rw [contribA_eq_zero_high conf 0 j (by omega)] at hget
    have hub : contribB conf 0 j ≤ 65535 := by
      rcases Nat.lt_trichotomy (0 / 4 + 10) j with h | h | h
      · exact hB.2.2.1 h
      · have hle := hB.2.1 h
        have h16 : (16 : Int) ^ (0 % 4) = 1 := by norm_num
        omega
      · rw [hB.2.2.2 h]
        norm_num
    have h0 := hB.1
    omega

theorem tsc_output_range (conf : List (Int × Int))
    (hc : ∀ e ∈ conf, 0 ≤ e.1 ∧ e.1 ≤ 65535 ∧ 0 ≤ e.2)
    (hlen : conf.length ≤ 24) (hsum : sumRc conf ≤ 39) :
    ∀ x ∈ tscFill conf 0 (List.replicate 36 0), 0 ≤ x ∧ x ≤ 65535 := by
  intro x hx
  rcases List.mem_iff_getElem.mp hx with ⟨j, hj, hxe⟩
  have hj36 : j < 36 := by
    rw [tscFill_length, List.length_replicate] at hj
    exact hj
  have hget : (tscFill conf 0 (List.replicate 36 0)).getD j 0 = x := by
    rw [List.getD_eq_getElem _ _ hj]
    exact hxe
  by_cases hj24 : j < 24
  · rw [tscFill_getD_low conf 0 _ (by simp) (by omega) j hj24] at hget
    by_cases hjl : 0 ≤ j ∧ j < 0 + conf.length
    · rw [if_pos hjl] at hget
      have hmem : conf.getD (j - 0) (0, 0) ∈ conf := by
        rw [List.getD_eq_getElem conf (0, 0) (by omega)]
        exact List.getElem_mem (by omega)
      have := hc _ hmem
      omega
    · rw [if_neg hjl, replicate_getD] at hget
      omega
  · rw [tscFill_getD_high conf 0 _ (by simp) (by omega) j (by omega) hj36,
      replicate_getD] at hget
    have hBT := contribBT_bound conf 0 j (fun e he => (hc e he).2.2)
    omega

/-- C5 amended: every register word any encoder returns lies in 0..65535,
for the integer, float-pair and hex encoders unconditionally over their
whole domains, for the TSC packer for every accepted sequence of unsigned
16-bit codes and nonnegative register counts, and for the IWC packer
additionally requiring each register count to be at most 15 so that it
fits its 4-bit field; without that restriction the IWC packer can emit a
word above 65535 even on an accepted input. -/
theorem encoder_output_range :
    (∀ (conf : List (Int × Int)) (l : List Int),
      (∀ e ∈ conf, 0 ≤ e.1 ∧ e.1 ≤ 65535 ∧ 0 ≤ e.2 ∧ e.2 ≤ 15) →
      iwcPack conf = .ok l → ∀ x ∈ l, 0 ≤ x ∧ x ≤ 65535) ∧
    (∀ (conf : List (Int × Int)) (l : List Int),
      (∀ e ∈ conf, 0 ≤ e.1 ∧ e.1 ≤ 65535 ∧ 0 ≤ e.2) →
      tscPack conf = .ok l → ∀ x ∈ l, 0 ≤ x ∧ x ≤ 65535) ∧
    (∀ a b : Rat, ∀ x ∈ TscCoordinates.modbus_package a b, x ≤ 65535) ∧
    (∀ a b : Rat, ∀ x ∈ TscSunTracking.modbus_package a b, x ≤ 65535) ∧
    (∀ angles : List Rat, ∀ x ∈ TscSmartLimits.modbus_package angles, x ≤ 65535) ∧
    (∀ angles : List Rat, ∀ x ∈ TscSafePositions.modbus_package angles, x ≤ 65535) ∧
    (∀ a b : Rat, ∀ x ∈ IwcWindSpeedThresholds.modbus_package a b, x ≤ 65535) ∧
    (∀ a : Rat, ∀ x ∈ IwcSnowThreshold.modbus_package a, x ≤ 65535) ∧
    (∀ (a b : Int) (l : List Nat), IwcWindAlarmTime.modbus_package a b = .ok l →
      ∀ x ∈ l, x ≤ 65535) ∧
    (∀ (a : Int) (l : List Nat), IwcAvgTime.modbus_package a = .ok l →
      ∀ x ∈ l, x ≤ 65535) ∧
    (∀ (a : Int) (l : List Nat), IwcRelaxTime.modbus_package a = .ok l →
      ∀ x ∈ l, x ≤ 65535) ∧
    (∀ (a b : Int) (l : List Nat), TscBacktracking.modbus_package a b = .ok l →
      ∀ x ∈ l, x ≤ 65535) ∧
    (∀ (a b : Rat) (l : List Nat), TscSwMovementLimit.modbus_package a b = .ok l →
      ∀ x ∈ l, x ≤ 65535) ∧
    (∀ (s : List Char) (l : List Nat), TscPanID.modbus_package s = .ok l →
      ∀ x ∈ l, x ≤ 65535) ∧
    (∀ (s : List Char) (l : List Nat), IwcPanID.modbus_package s = .ok l →
      ∀ x ∈ l, x ≤ 65535) ∧
    (∀ (a : Int) (u : Nat), IwcSnowActivationTime.modbus_package a = .ok u →
      u ≤ 65535) ∧
    (∀ (a : Int) (u : Nat), IwcSnowDeactivationTime.modbus_package a = .ok u →
      u ≤ 65535) ∧
    (∀ (a : Int) (u : Nat), IwcSnowSampleTime.modbus_package a = .ok u → u ≤ 65535) ∧
    (∀ (a : Int) (u : Nat), IwcSnowMaxVariation.modbus_package a = .ok u →
      u ≤ 65535) := by
  have hpair : ∀ (x y : Int) (l : List Nat),
      (match encode_i16_as_u16 x, encode_i16_as_u16 y with
        | .ok d, .ok a => Except.ok [d, a]
        | .error msg, _ => .error msg
        | _, .error msg => .error msg) = .ok l → ∀ v ∈ l, v ≤ 65535 := by
    intro x y l h v hv
    cases h1 : encode_i16_as_u16 x with
    | error msg =>
      cases h2 : encode_i16_as_u16 y with
      | error msg2 =>
        rw [h1, h2] at h
        dsimp only at h
        cases h
      | ok a =>
        rw [h1, h2] at h
        dsimp only at h
        cases h
    | ok d =>
      cases h2 : encode_i16_as_u16 y with
      | error msg =>
        rw [h1, h2] at h
        dsimp only at h
        cases h
      | ok a =>
        rw [h1, h2] at h
        dsimp only at h
        cases h
        have hd := encode_ok_le x d h1
        have ha := encode_ok_le y a h2
        simp only [List.mem_cons, List.not_mem_nil, or_false] at hv
        rcases hv with rfl | rfl <;> omega
  have hone : ∀ (x : Int) (l : List Nat),
      (match encode_i16_as_u16 x with
        | .ok v => Except.ok [v]
        | .error msg => .error msg) = .ok l → ∀ v ∈ l, v ≤ 65535 := by
    intro x l h v hv
    cases h1 : encode_i16_as_u16 x with
    | error msg =>
      rw [h1] at h
      dsimp only at h
      cases h
    | ok d =>
      rw [h1] at h
      dsimp only at h
      cases h
      have hd := encode_ok_le x d h1
      simp only [List.mem_cons, List.not_mem_nil, or_false] at hv
      rcases hv with rfl
      omega
  refine ⟨?_, ?_, ?_, ?_, ?_, ?_, ?_, ?_, ?_, ?_, ?_, ?_, ?_, ?_, ?_, ?_, ?_, ?_, ?_⟩
  · intro conf l hc h
    rcases iwcPack_ok_elim conf l h with ⟨hlen, _, hl⟩
    subst hl
    exact iwc_output_range conf hc hlen
  · intro conf l hc h
    rcases tscPack_ok_elim conf l h with ⟨hlen, hfv, hl⟩
    subst hl
    have hsum : sumRc conf ≤ 39 := by
      rcases Nat.eq_zero_or_pos conf.length with h0 | h0
      · have h1 : conf = [] := List.length_eq_zero.mp h0
        subst h1
        have h2 : sumRc [] = 0 := rfl
        omega
      · have hle := (firstViolation_none_iff 39 conf 0).mp hfv conf.length h0 le_rfl
        rw [zero_add, prefixSum_length] at hle
        exact hle
    exact tsc_output_range conf hc hlen hsum
  · intro a b x hx
    rcases List.mem_append.mp hx with h | h
    · exact f32words_le a x h
    · exact f32words_le b x h
  · intro a b x hx
    rcases List.mem_append.mp hx with h | h
    · exact f32words_le a x h
    · exact f32words_le b x h
  · exact foldr_f32words_le
  · exact foldr_f32words_le
  · intro a b x hx
    rcases List.mem_append.mp hx with h | h
    · exact f32words_le _ x h
    · exact f32words_le _ x h
  · intro a x hx
    exact f32words_le a x hx
  · exact fun a b => hpair a b
  · exact fun a => hone a
  · exact fun a => hone a
  · exact fun a b => hpair a b
  · intro a b l h v hv
    rw [TscSwMovementLimit.modbus_package] at h
    cases h1 : encode_i16_as_u16 (truncQ (fmul64 a swConst)) with
    | error msg =>
      cases h2 : encode_i16_as_u16 (truncQ (fmul64 b swConst)) with
      | error msg2 =>
        rw [h1, h2] at h
        dsimp only at h
        cases h
      | ok ea =>
        rw [h1, h2] at h
        dsimp only at h
        cases h
    | ok d =>
      cases h2 : encode_i16_as_u16 (truncQ (fmul64 b swConst)) with
      | error msg =>
        rw [h1, h2] at h
        dsimp only at h
        cases h
      | ok ea =>
        rw [h1, h2] at h
        dsimp only at h
        cases h
        have hd := encode_ok_le _ d h1
        have ha := encode_ok_le _ ea h2
        simp only [List.mem_cons, List.not_mem_nil, or_false] at hv
        rcases hv with rfl | rfl <;> omega
  · exact panid_ok_le
  · intro s l h
    exact panid_ok_le s l h
  · exact fun a u h => encode_ok_le a u h
  · exact fun a u h => encode_ok_le a u h
  · exact fun a u h => encode_ok_le a u h
  · exact fun a u h => encode_ok_le a u h

/-- Witness for the C5 amended claim: the word 260 of the accepted TSC
example lies in the unsigned 16-bit range. -/
theorem encoder_output_range_witness : (0 : Int) ≤ 260 ∧ (260 : Int) ≤ 65535 :=
  encoder_output_range.2.1 [(30000, 4), (42000, 1)]
    [30000, 42000, 0, 0, 0, 0, 0, 0, 0, 0, 0, 0, 0, 0, 0, 0, 0, 0, 0, 0, 0, 0,
      0, 0, 260, 0, 0, 0, 0, 0, 0, 0, 0, 0, 0, 0]
    (by decide) (by decide) 260 (by decide)

end Commissioning
